import Mathlib

/-!
# port_win.h : mutex, condition variable, one-time initialisation, codec bridge

A shallow embedding of `src/port/port_win.h`.  Objects are records, member
functions are functions that take the object (and the memory they touch) and
return the updated object.  A call that does not return normally yields a
`Fault`: a failed `assert` aborts, a call that waits for a lock nobody will
release is blocked, and a call outside the contract of the C++ library is
undefined.
-/

namespace leveldb
namespace port

/-- The ways in which a call can fail to return normally. -/
inductive Fault where
  | abort
  | blocked
  | undefined
deriving DecidableEq, Repr

deriving instance DecidableEq for Except

/-- Identity of the calling thread. -/
abbrev Tid := Nat

/-- A byte of a `char` buffer. -/
abbrev CChar := Fin 256

/-! ## std::mutex -/

/-- The state of a `std::mutex`: free, or locked by one thread. -/
structure std_mutex where
  owner : Option Tid
deriving DecidableEq, Repr

/-- The call `mu.lock()` by thread `t`: it takes a free mutex, waits while
another thread holds it, and is undefined when `t` holds it already. -/
def std_mutex.lock (m : std_mutex) (t : Tid) : Except Fault std_mutex :=
  match m.owner with
  | none => .ok { owner := some t }
  | some o => if o = t then .error .undefined else .error .blocked

/-- The call `mu.unlock()` by thread `t`: undefined unless `t` holds it. -/
def std_mutex.unlock (m : std_mutex) (t : Tid) : Except Fault std_mutex :=
  if m.owner = some t then .ok { owner := none } else .error .undefined

/-! ## class Mutex (lines 76-91) -/

/-- The class `Mutex`: thinly wraps `std::mutex`. -/
structure Mutex where
  mu_ : std_mutex
deriving DecidableEq, Repr

/-- The constructor `Mutex() = default`: the wrapped mutex starts free. -/
def Mutex.new : Mutex := { mu_ := { owner := none } }

/-- The member `void Lock() { mu_.lock(); }`. -/
def Mutex.Lock (m : Mutex) (t : Tid) : Except Fault Mutex := do
  let mu ← m.mu_.lock t
  pure { mu_ := mu }

/-- The member `void Unlock() { mu_.unlock(); }`. -/
def Mutex.Unlock (m : Mutex) (t : Tid) : Except Fault Mutex := do
  let mu ← m.mu_.unlock t
  pure { mu_ := mu }

/-- The member `void AssertHeld() { }`. -/
def Mutex.AssertHeld (m : Mutex) : Mutex := m

/-! ## class OnceType (lines 114-136) -/

/-- What a call does that can be seen from outside, in program order. The
initializer is a `void (*)()`: it acts on the globals of the program, of
type `W`. -/
inductive Event (W : Type) where
  | lock
  | store (v : Bool)
  | call (f : W → W)
  | unlock

/-- The program state outside the guard: the globals that initializers act
on, and the events so far, oldest first. -/
structure Exec (W : Type) where
  globals : W
  trace : List (Event W)

/-- Append one event to the trace. -/
def Exec.emit {W : Type} (e : Exec W) (ev : Event W) : Exec W :=
  { e with trace := e.trace ++ [ev] }

/-- Call through a function pointer: the callee runs to completion on the
globals, and the call is recorded. -/
def Exec.invoke {W : Type} (e : Exec W) (f : W → W) : Exec W :=
  { globals := f e.globals, trace := e.trace ++ [Event.call f] }

/-- The initializers invoked in a trace, oldest first. -/
def invoked {W : Type} : List (Event W) → List (W → W)
  | [] => []
  | Event.call f :: rest => f :: invoked rest
  | _ :: rest => invoked rest

/-- The value of the flag `init_` seen at each initializer invocation of a
trace, for a guard whose flag is `flag` when the trace starts. -/
def flagAtCalls {W : Type} (flag : Bool) : List (Event W) → List Bool
  | [] => []
  | Event.store v :: rest => flagAtCalls v rest
  | Event.call _ :: rest => flag :: flagAtCalls flag rest
  | _ :: rest => flagAtCalls flag rest

/-- The class `OnceType`: the flag `init_` and the mutex `mutex_`. -/
structure OnceType where
  init_ : Bool
  mutex_ : Mutex
deriving DecidableEq, Repr

/-- The constructor `OnceType(bool f) : init_(f) {}`. -/
def OnceType.ofBool (f : Bool) : OnceType :=
  { init_ := f, mutex_ := Mutex.new }

/-- The constructor `OnceType(const OnceType &once) : init_(once.init_) {}`. -/
def OnceType.copy (once : OnceType) : OnceType :=
  { init_ := once.init_, mutex_ := Mutex.new }

/-- The constant `#define LEVELDB_ONCE_INIT false`. -/
def LEVELDB_ONCE_INIT : Bool := false

/-- The member `void InitOnce(void (*initializer)())`, called by thread `t`:
```
mutex_.Lock();
if (!init_) { init_ = true; initializer(); }
mutex_.Unlock();
```
-/
def OnceType.InitOnce {W : Type} (once : OnceType) (t : Tid) (initializer : W → W)
    (e : Exec W) : Except Fault (OnceType × Exec W) := do
  let mutex_ ← once.mutex_.Lock t
  let e := e.emit Event.lock
  let (init_, e) :=
    if !once.init_ then
      let init_ := true
      let e := e.emit (Event.store true)
      let e := e.invoke initializer
      (init_, e)
    else
      (once.init_, e)
  let mutex_ ← mutex_.Unlock t
  let e := e.emit Event.unlock
  pure ({ init_ := init_, mutex_ := mutex_ }, e)

/-- The free function `InitOnce(OnceType* once, void (*initializer)())`. -/
def InitOnce {W : Type} (once : OnceType) (t : Tid) (initializer : W → W)
    (e : Exec W) : Except Fault (OnceType × Exec W) :=
  once.InitOnce t initializer e

/-- A finite sequence of `InitOnce` calls on one guard, made one after
another; each call names its thread and its initializer. -/
def InitOnceSeq {W : Type} (once : OnceType) (e : Exec W) :
    List (Tid × (W → W)) → Except Fault (OnceType × Exec W)
  | [] => .ok (once, e)
  | (t, f) :: rest =>
    match InitOnce once t f e with
    | .ok (once1, e1) => InitOnceSeq once1 e1 rest
    | .error x => .error x

/-- The trace of a call that finds the flag set: lock, then unlock. -/
def skipTrace (W : Type) : List (Event W) := [Event.lock, Event.unlock]

/-- The trace of a call that finds the flag clear and runs `f`. -/
def runTrace {W : Type} (f : W → W) : List (Event W) :=
  [Event.lock, Event.store true, Event.call f, Event.unlock]

/-- The trace of `n` calls in a row that find the flag set. -/
def skipsTrace (W : Type) : Nat → List (Event W)
  | 0 => []
  | n + 1 => skipTrace W ++ skipsTrace W n

/-! ## class CondVar (lines 94-112) -/

/-- A `Mutex*`: the null pointer, or the address of a Mutex object. -/
abbrev MutexPtr := Option Nat

/-- The null pointer. -/
def nullptr : MutexPtr := none

/-- The Mutex objects of the program, by address. -/
abbrev Heap := Nat → Option Mutex

/-- The macro `assert(c)` of `<cassert>`: it expands to nothing when `NDEBUG`
is defined, and aborts the program when `c` is false otherwise. -/
def assert (NDEBUG : Bool) (c : Bool) : Except Fault Unit :=
  if NDEBUG then .ok ()
  else if c then .ok () else .error .abort

/-- The state of a `std::unique_lock<std::mutex>`: the mutex it refers to
(here the address of the `Mutex` that wraps it) and whether it owns it. -/
structure unique_lock where
  pm : Option Nat
  owns : Bool
deriving DecidableEq, Repr

/-- The constructor `unique_lock(m, std::adopt_lock)`: it takes ownership of
a mutex that the calling thread has locked already, without locking it. -/
def unique_lock.adopt (p : Nat) : unique_lock :=
  { pm := some p, owns := true }

/-- The call `lock.unlock()`: unlocks the mutex and gives up ownership; it
throws when the lock owns no mutex. -/
def unique_lock.unlock (l : unique_lock) (t : Tid) (h : Heap) :
    Except Fault (unique_lock × Heap) :=
  match l.pm, l.owns with
  | some p, true =>
    match h p with
    | some m => do
      let m1 ← m.Unlock t
      pure ({ l with owns := false }, Function.update h p (some m1))
    | none => .error .undefined
  | _, _ => .error .abort

/-- The call `lock.lock()`: locks the mutex and takes ownership; it throws
when there is no mutex or the lock owns it already. -/
def unique_lock.lock (l : unique_lock) (t : Tid) (h : Heap) :
    Except Fault (unique_lock × Heap) :=
  match l.pm, l.owns with
  | some p, false =>
    match h p with
    | some m => do
      let m1 ← m.Lock t
      pure ({ l with owns := true }, Function.update h p (some m1))
    | none => .error .undefined
  | _, _ => .error .abort

/-- The call `lock.release()`: breaks the association with the mutex without
unlocking it, and returns the pointer it held. -/
def unique_lock.release (l : unique_lock) : Option Nat × unique_lock :=
  (l.pm, { pm := none, owns := false })

/-- The destructor `~unique_lock()`: unlocks the mutex if the lock owns it. -/
def unique_lock.destroy (l : unique_lock) (t : Tid) (h : Heap) : Except Fault Heap :=
  if l.owns then do
    let (_, h1) ← l.unlock t h
    pure h1
  else .ok h

/-- The state of a `std::condition_variable`: the threads blocked on it. -/
structure condition_variable where
  waiters : List Tid
deriving DecidableEq, Repr

/-- A new condition variable: no thread waits on it. -/
def condition_variable.new : condition_variable := { waiters := [] }

/-- The call `cv.notify_one()`: unblocks one waiting thread, if any; which one
is the choice `pick` of the scheduler. -/
def condition_variable.notify_one (cv : condition_variable) (pick : Nat) :
    condition_variable :=
  { waiters := cv.waiters.eraseIdx pick }

/-- The call `cv.notify_all()`: unblocks every waiting thread. -/
def condition_variable.notify_all (_cv : condition_variable) : condition_variable :=
  { waiters := [] }

/-- The call `cv.wait(lock)` by thread `t`: atomically unlocks `lock` and
blocks on the condition variable; while `t` is suspended the other threads
act on the mutexes (`others`); once unblocked, by a notification or
spuriously, `t` locks `lock` again before the call returns. -/
def condition_variable.wait (cv : condition_variable) (lock : unique_lock) (t : Tid)
    (others : Heap → Heap) (h : Heap) :
    Except Fault (condition_variable × unique_lock × Heap) := do
  let (lock, h) ← lock.unlock t h
  let cv : condition_variable := { waiters := t :: cv.waiters }
  let h := others h
  let cv : condition_variable := { waiters := cv.waiters.erase t }
  let (lock, h) ← lock.lock t h
  pure (cv, lock, h)

/-- The class `CondVar`: the condition variable `cv_` and the pointer
`Mutex* const mu_`. -/
structure CondVar where
  cv_ : condition_variable
  mu_ : MutexPtr
deriving DecidableEq, Repr

/-- The constructor `CondVar(Mutex* mu) : mu_(mu) { assert(mu != nullptr); }`. -/
def CondVar.new (NDEBUG : Bool) (mu : MutexPtr) : Except Fault CondVar := do
  let self : CondVar := { cv_ := condition_variable.new, mu_ := mu }
  assert NDEBUG (mu != nullptr)
  pure self

/-- The member `void Wait()`, called by thread `t`:
```
std::unique_lock<std::mutex> lock(mu_->mu_, std::adopt_lock);
cv_.wait(lock);
lock.release();
```
followed by the destructor of `lock`.  Reaching `mu_->mu_` through a null or
dangling pointer is undefined. -/
def CondVar.Wait (cv : CondVar) (t : Tid) (others : Heap → Heap) (h : Heap) :
    Except Fault (CondVar × Heap) :=
  match cv.mu_ with
  | none => .error .undefined
  | some p =>
    match h p with
    | none => .error .undefined
    | some _ => do
      let lock := unique_lock.adopt p
      let (cv_, lock, h) ← cv.cv_.wait lock t others h
      let (_, lock) := lock.release
      let h ← lock.destroy t h
      pure ({ cv with cv_ := cv_ }, h)

/-- The member `void Signal() { cv_.notify_one(); }`. -/
def CondVar.Signal (cv : CondVar) (pick : Nat) : CondVar :=
  { cv with cv_ := cv.cv_.notify_one pick }

/-- The member `void SignalAll() { cv_.notify_all(); }`. -/
def CondVar.SignalAll (cv : CondVar) : CondVar :=
  { cv with cv_ := cv.cv_.notify_all }

/-- The operations on a constructed CondVar. -/
inductive CondVarOp where
  | wait (t : Tid) (others : Heap → Heap)
  | signal (pick : Nat)
  | signalAll

/-- Run one operation on a CondVar. -/
def CondVar.apply (cv : CondVar) (h : Heap) : CondVarOp → Except Fault (CondVar × Heap)
  | CondVarOp.wait t others => cv.Wait t others h
  | CondVarOp.signal pick => .ok (cv.Signal pick, h)
  | CondVarOp.signalAll => .ok (cv.SignalAll, h)

/-- Run a sequence of operations on a CondVar, one after another. -/
def CondVar.applyAll (cv : CondVar) (h : Heap) : List CondVarOp → Except Fault (CondVar × Heap)
  | [] => .ok (cv, h)
  | op :: rest =>
    match cv.apply h op with
    | .ok (cv1, h1) => CondVar.applyAll cv1 h1 rest
    | .error x => .error x

/-! ## The optional codec bridge (lines 138-179) -/

/-- The entry points of the external compression library, present when
`SNAPPY` is defined.  `RawCompress input length` gives the bytes it writes to
the destination, whose number it reports in `*compressed_length`;
`GetUncompressedLength input length result` gives the returned flag and the
new value of `*result`; `RawUncompress input length` gives the returned flag
and the bytes it writes to the destination. -/
structure snappy where
  MaxCompressedLength : Nat → Nat
  RawCompress : List CChar → Nat → List CChar
  GetUncompressedLength : List CChar → Nat → Nat → Bool × Nat
  RawUncompress : List CChar → Nat → Bool × List CChar

/-- The call `s.resize(n)` on a `std::string`: truncates, or pads with zero
bytes. -/
def resize (s : List CChar) (n : Nat) : List CChar :=
  s.take n ++ List.replicate (n - s.length) 0

/-- Writing `data` into a buffer from its first byte on; writing past the end
of the buffer is undefined. -/
def writeTo (buf data : List CChar) : Except Fault (List CChar) :=
  if data.length ≤ buf.length then .ok (data ++ buf.drop data.length)
  else .error .undefined

/-- The function `Snappy_Compress(input, length, output)`; the result is the
returned flag and the new value of `*output`:
```
#ifdef SNAPPY
  output->resize(snappy::MaxCompressedLength(length));
  size_t outlen;
  snappy::RawCompress(input, length, &(*output)[0], &outlen);
  output->resize(outlen);
  return true;
#endif
  return false;
```
-/
def Snappy_Compress (SNAPPY : Option snappy) (input : List CChar) (length : Nat)
    (output : List CChar) : Except Fault (Bool × List CChar) :=
  match SNAPPY with
  | some lib => do
    let output := resize output (lib.MaxCompressedLength length)
    let written := lib.RawCompress input length
    let outlen := written.length
    let output ← writeTo output written
    let output := resize output outlen
    pure (true, output)
  | none => pure (false, output)

/-- The function `Snappy_GetUncompressedLength(input, length, result)`; the
result is the returned flag and the new value of `*result`. -/
def Snappy_GetUncompressedLength (SNAPPY : Option snappy) (input : List CChar)
    (length : Nat) (result : Nat) : Bool × Nat :=
  match SNAPPY with
  | some lib => lib.GetUncompressedLength input length result
  | none => (false, result)

/-- The function `Snappy_Uncompress(input, length, output)`; the result is the
returned flag and the new content of the buffer `output`. -/
def Snappy_Uncompress (SNAPPY : Option snappy) (input : List CChar) (length : Nat)
    (output : List CChar) : Except Fault (Bool × List CChar) :=
  match SNAPPY with
  | some lib => do
    let (ok, written) := lib.RawUncompress input length
    let output ← writeTo output written
    pure (ok, output)
  | none => pure (false, output)

/-- The function `AcceleratedCRC32C(crc, buf, size)`.  `HAVE_CRC32C` is the
value of the configuration name (`none` when it is not defined; the
preprocessor reads an undefined name as 0 in `#if`), `Extend` is the entry
point `crc32c::Extend` of the external library:
```
#if HAVE_CRC32C
  return ::crc32c::Extend(crc, reinterpret_cast<const uint8_t*>(buf), size);
#else
  return 0;
#endif
```
-/
def AcceleratedCRC32C (HAVE_CRC32C : Option Int) (Extend : Nat → List CChar → Nat → Nat)
    (crc : Nat) (buf : List CChar) (size : Nat) : Nat :=
  if HAVE_CRC32C.getD 0 ≠ 0 then Extend crc buf size % 2 ^ 32
  else 0


/-- A small codec to run the bridge on: the compressed form is the input
behind one byte that holds its length (inputs of up to 255 bytes). -/
def storedCodec : snappy where
  MaxCompressedLength n := 32 + n + n / 6
  RawCompress input length := Fin.ofNat length :: input.take length
  GetUncompressedLength input _ result :=
    match input with
    | [] => (false, result)
    | b :: _ => (true, b.val)
  RawUncompress input _ :=
    match input with
    | [] => (false, [])
    | b :: rest => (decide (rest.length = b.val), rest.take b.val)

/-- A codec that encodes and decodes like `storedCodec`, but whose length
query answers 0 for every input. -/
def shortLengthCodec : snappy where
  MaxCompressedLength := storedCodec.MaxCompressedLength
  RawCompress := storedCodec.RawCompress
  GetUncompressedLength _ _ _ := (true, 0)
  RawUncompress := storedCodec.RawUncompress

/-- A heap with one Mutex, at address 7, locked by thread 3. -/
def heapWithHeldMutex : Heap := fun a => if a = 7 then some { mu_ := { owner := some 3 } } else none

/-! ## InitOnce under concurrent callers -/

/-- Where a thread stands in the body of `OnceType::InitOnce` (lines 120-125):
before `mutex_.Lock()`, before the test `if (!init_)`, before the store
`init_ = true`, before the call `initializer()`, inside that call, before
`mutex_.Unlock()`, and after the return. -/
inductive Pc where
  | atLock
  | atTest
  | atStore
  | atCall
  | inCall
  | atUnlock
  | returned
deriving DecidableEq, Repr

/-- What the threads are seen to do: thread `t` starts its initializer, the
initializer of thread `t` completes, the call of thread `t` returns. -/
inductive Obs where
  | started (t : Tid)
  | finished (t : Tid)
  | returned (t : Tid)
deriving DecidableEq, Repr

/-- The state shared by the threads that call `InitOnce` on one guard: the
guard, the globals the initializers act on, where each thread stands, and
what has been seen so far, oldest first. -/
structure Sys (W : Type) where
  once : OnceType
  globals : W
  pc : Tid → Pc
  log : List Obs

/-- All threads are about to call `InitOnce` on a guard constructed with
`LEVELDB_ONCE_INIT`. -/
def Sys.init {W : Type} (w : W) : Sys W :=
  { once := OnceType.ofBool LEVELDB_ONCE_INIT, globals := w, pc := fun _ => Pc.atLock,
    log := [] }

/-- One step of thread `t`, one of the `N` threads, whose initializer is
`fs t`: the next line of the body of `InitOnce`.  There is no step while the
thread waits for the mutex, and none once its call has returned. -/
def Sys.step {W : Type} (N : Nat) (fs : Tid → W → W) (s : Sys W) (t : Tid) :
    Option (Sys W) :=
  if t < N then
    match s.pc t with
    | Pc.atLock =>
      match s.once.mutex_.Lock t with
      | .ok m =>
        some { s with once := { s.once with mutex_ := m },
                      pc := Function.update s.pc t Pc.atTest }
      | .error _ => none
    | Pc.atTest =>
      some { s with pc := Function.update s.pc t
                      (if !s.once.init_ then Pc.atStore else Pc.atUnlock) }
    | Pc.atStore =>
      some { s with once := { s.once with init_ := true },
                    pc := Function.update s.pc t Pc.atCall }
    | Pc.atCall =>
      some { s with log := s.log ++ [Obs.started t], pc := Function.update s.pc t Pc.inCall }
    | Pc.inCall =>
      some { s with globals := fs t s.globals, log := s.log ++ [Obs.finished t],
                    pc := Function.update s.pc t Pc.atUnlock }
    | Pc.atUnlock =>
      match s.once.mutex_.Unlock t with
      | .ok m =>
        some { s with once := { s.once with mutex_ := m }, log := s.log ++ [Obs.returned t],
                      pc := Function.update s.pc t Pc.returned }
      | .error _ => none
    | Pc.returned => none
  else none

/-- An interleaving: the scheduler picks the threads in the order `sched`; a
pick of a thread that has no step leaves the state as it is. -/
def Sys.run {W : Type} (N : Nat) (fs : Tid → W → W) (s : Sys W) : List Tid → Sys W
  | [] => s
  | t :: rest =>
    match s.step N fs t with
    | some s1 => Sys.run N fs s1 rest
    | none => Sys.run N fs s rest

/-- The log of an execution in which thread `t`, alone, has run its
initializer from start to finish, after which the calls of the threads
`rets` have returned, in this order. -/
def ranOnceThen (t : Tid) (rets : List Tid) : List Obs :=
  Obs.started t :: Obs.finished t :: rets.map Obs.returned

/-- The number of lines a thread at `pc` has at most left to run. -/
def Pc.weight : Pc → Nat
  | Pc.atLock => 6
  | Pc.atTest => 5
  | Pc.atStore => 4
  | Pc.atCall => 3
  | Pc.inCall => 2
  | Pc.atUnlock => 1
  | Pc.returned => 0

/-- The number of steps the first `N` threads have at most left to take. -/
def remaining (pc : Tid → Pc) : Nat → Nat
  | 0 => 0
  | n + 1 => remaining pc n + (pc n).weight

/-- Each thread adds its number to the globals, plus one. -/
def addTid (t : Tid) (w : Nat) : Nat := w + t + 1

/-- What holds of every state the threads can reach from `Sys.init w`: only
the first `N` threads move; the threads between `mutex_.Lock()` and
`mutex_.Unlock()` are exactly the holder of the mutex; and the state is in
one of four phases: no initializer claimed yet, claimed by the thread that
set the flag, running, or completed by thread `t` with the calls `rets`
returned since. -/
def Inv {W : Type} (N : Nat) (fs : Tid → W → W) (w : W) (s : Sys W) : Prop :=
  (∀ t, N ≤ t → s.pc t = Pc.atLock) ∧
  (∀ t, s.pc t ≠ Pc.atLock → s.pc t ≠ Pc.returned → s.once.mutex_.mu_.owner = some t) ∧
  (∀ t, s.once.mutex_.mu_.owner = some t → s.pc t ≠ Pc.atLock ∧ s.pc t ≠ Pc.returned) ∧
  ((s.once.init_ = false ∧ s.log = [] ∧ s.globals = w ∧
      ∀ u, s.pc u = Pc.atLock ∨ s.pc u = Pc.atTest ∨ s.pc u = Pc.atStore) ∨
   (s.once.init_ = true ∧ s.log = [] ∧ s.globals = w ∧
      ∃ t, s.pc t = Pc.atCall ∧ ∀ u, u ≠ t → s.pc u = Pc.atLock) ∨
   (s.once.init_ = true ∧ s.globals = w ∧
      ∃ t, s.log = [Obs.started t] ∧ s.pc t = Pc.inCall ∧ ∀ u, u ≠ t → s.pc u = Pc.atLock) ∨
   (s.once.init_ = true ∧
      ∃ t rets, t < N ∧ s.log = ranOnceThen t rets ∧ s.globals = fs t w ∧
        (∀ u, s.pc u = Pc.atLock ∨ s.pc u = Pc.atTest ∨ s.pc u = Pc.atUnlock ∨
          s.pc u = Pc.returned) ∧
        (∀ u, s.pc u = Pc.returned → u ∈ rets)))

/-! ## Lemmas on InitOnce -/

theorem invoked_append {W : Type} (a b : List (Event W)) :
    invoked (a ++ b) = invoked a ++ invoked b := by
  induction a with
  | nil => rfl
  | cons ev rest ih => cases ev <;> simp [invoked, ih]

theorem invoked_skipsTrace (W : Type) (n : Nat) : invoked (skipsTrace W n) = [] := by
  induction n with
  | zero => rfl
  | succ k ih => simp [skipsTrace, skipTrace, invoked_append, invoked, ih]

/-- A call on a guard whose flag is clear and whose mutex is free. -/
theorem InitOnce_clear {W : Type} (t : Tid) (f : W → W) (e : Exec W) :
    InitOnce { init_ := false, mutex_ := Mutex.new } t f e =
      .ok ({ init_ := true, mutex_ := Mutex.new },
           { globals := f e.globals, trace := e.trace ++ runTrace f }) := by
  simp [InitOnce, OnceType.InitOnce, Mutex.Lock, Mutex.Unlock, std_mutex.lock,
    std_mutex.unlock, Mutex.new, Exec.emit, Exec.invoke, runTrace, bind, Except.bind, pure,
    Except.pure]

/-- A call on a guard whose flag is set and whose mutex is free. -/
theorem InitOnce_set {W : Type} (t : Tid) (f : W → W) (e : Exec W) :
    InitOnce { init_ := true, mutex_ := Mutex.new } t f e =
      .ok ({ init_ := true, mutex_ := Mutex.new },
           { globals := e.globals, trace := e.trace ++ skipTrace W }) := by
  simp [InitOnce, OnceType.InitOnce, Mutex.Lock, Mutex.Unlock, std_mutex.lock,
    std_mutex.unlock, Mutex.new, Exec.emit, skipTrace, bind, Except.bind, pure,
    Except.pure]

/-- A call returns only if it found the mutex free. -/
theorem InitOnce_ok_free {W : Type} (once : OnceType) (t : Tid) (f : W → W) (e : Exec W)
    (r : OnceType × Exec W) (h : InitOnce once t f e = .ok r) : once.mutex_ = Mutex.new := by
  obtain ⟨i, ⟨⟨o⟩⟩⟩ := once
  cases o with
  | none => rfl
  | some o =>
    exfalso
    by_cases ho : o = t <;>
      simp [InitOnce, OnceType.InitOnce, Mutex.Lock, std_mutex.lock, ho, bind,
        Except.bind] at h

/-- Calls in a row on a guard whose flag is set and whose mutex is free. -/
theorem InitOnceSeq_set {W : Type} (calls : List (Tid × (W → W))) (e : Exec W) :
    InitOnceSeq { init_ := true, mutex_ := Mutex.new } e calls =
      .ok ({ init_ := true, mutex_ := Mutex.new },
           { globals := e.globals, trace := e.trace ++ skipsTrace W calls.length }) := by
  induction calls generalizing e with
  | nil => simp [InitOnceSeq, skipsTrace]
  | cons c rest ih =>
    obtain ⟨t, f⟩ := c
    simp [InitOnceSeq, InitOnce_set, ih, skipsTrace]

/-! ## OnceType: the claims -/

/-- C1: on a guard constructed with `LEVELDB_ONCE_INIT`, a non-empty sequence
of `InitOnce` calls made one after another (any threads, any initializers)
returns; the first call runs its own initializer `f` to completion before it
returns, the later calls only lock and unlock, and over the whole sequence
exactly one initializer is invoked, namely `f`. -/
theorem initOnce_sequence_invokes_first_initializer_once {W : Type} (t : Tid) (f : W → W)
    (rest : List (Tid × (W → W))) (e : Exec W) :
    InitOnce (OnceType.ofBool LEVELDB_ONCE_INIT) t f e =
        .ok ({ init_ := true, mutex_ := Mutex.new },
             { globals := f e.globals, trace := e.trace ++ runTrace f }) ∧
      InitOnceSeq (OnceType.ofBool LEVELDB_ONCE_INIT) e ((t, f) :: rest) =
        .ok ({ init_ := true, mutex_ := Mutex.new },
             { globals := f e.globals,
               trace := e.trace ++ runTrace f ++ skipsTrace W rest.length }) ∧
      invoked (runTrace f) = [f] ∧
      invoked (skipsTrace W rest.length) = [] ∧
      invoked (runTrace f ++ skipsTrace W rest.length) = [f] ∧
      (invoked (runTrace f ++ skipsTrace W rest.length)).length = 1 := by
  have h1 : InitOnce (OnceType.ofBool LEVELDB_ONCE_INIT) t f e =
      .ok ({ init_ := true, mutex_ := Mutex.new },
           { globals := f e.globals, trace := e.trace ++ runTrace f }) :=
    InitOnce_clear t f e
  have h2 : invoked (runTrace f) = [f] := rfl
  have h3 : invoked (runTrace f ++ skipsTrace W rest.length) = [f] := by
    rw [invoked_append, invoked_skipsTrace, h2]; rfl
  refine ⟨h1, ?_, h2, invoked_skipsTrace W _, h3, by rw [h3]; rfl⟩
  rw [InitOnceSeq, h1]
  simp only []
  rw [InitOnceSeq_set]

/-- C2: on a guard whose flag is set, an `InitOnce` call that returns has
invoked nothing, has left the flag set and the globals as they were, and has
released the mutex; it fails to return only when the mutex was not free on
entry, and with the mutex free on entry it returns the guard unchanged.  No
sequence of calls clears the flag. -/
theorem initOnce_on_run_guard_skips {W : Type} (once : OnceType) (t : Tid) (f : W → W)
    (e : Exec W) (calls : List (Tid × (W → W))) (h : once.init_ = true) :
    (match InitOnce once t f e with
      | .ok r => r.1.init_ = true ∧ r.1.mutex_ = Mutex.new ∧ r.2.globals = e.globals ∧
          r.2.trace = e.trace ++ skipTrace W ∧ invoked r.2.trace = invoked e.trace
      | .error _ => once.mutex_ ≠ Mutex.new) ∧
      (once.mutex_ = Mutex.new →
        InitOnce once t f e =
          .ok (once, { globals := e.globals, trace := e.trace ++ skipTrace W })) ∧
      (match InitOnceSeq once e calls with
        | .ok r => r.1.init_ = true ∧ r.2.globals = e.globals ∧
            invoked r.2.trace = invoked e.trace
        | .error _ => once.mutex_ ≠ Mutex.new ∧ calls ≠ []) := by
  obtain ⟨i, m⟩ := once
  simp only at h
  subst h
  by_cases hm : m = Mutex.new
  · subst hm
    refine ⟨?_, fun _ => InitOnce_set t f e, ?_⟩
    · rw [InitOnce_set]
      simp [invoked_append, skipTrace, invoked]
    · rw [InitOnceSeq_set]
      simp [invoked_append, invoked_skipsTrace]
  · refine ⟨?_, fun hf => absurd hf hm, ?_⟩
    · cases hr : InitOnce { init_ := true, mutex_ := m } t f e with
      | error x => exact hm
      | ok r => exact absurd (InitOnce_ok_free _ t f e r hr) hm
    · cases calls with
      | nil => simp [InitOnceSeq]
      | cons c rest =>
        obtain ⟨t1, f1⟩ := c
        rw [InitOnceSeq]
        cases hr : InitOnce { init_ := true, mutex_ := m } t1 f1 e with
        | error x => exact ⟨hm, by simp⟩
        | ok r => exact absurd (InitOnce_ok_free _ t1 f1 e r hr) hm

/-- C2 at a concrete guard: flag set, mutex free, two calls in a row. -/
theorem initOnce_on_run_guard_skips_witness :
    (OnceType.ofBool true).init_ = true ∧
    ((match InitOnce (OnceType.ofBool true) 1 (fun n : Nat => n + 1) ⟨5, []⟩ with
      | .ok r => r.1.init_ = true ∧ r.1.mutex_ = Mutex.new ∧
          r.2.globals = (Exec.mk 5 []).globals ∧
          r.2.trace = (Exec.mk 5 []).trace ++ skipTrace Nat ∧
          invoked r.2.trace = invoked (Exec.mk 5 []).trace
      | .error _ => (OnceType.ofBool true).mutex_ ≠ Mutex.new) ∧
      ((OnceType.ofBool true).mutex_ = Mutex.new →
        InitOnce (OnceType.ofBool true) 1 (fun n : Nat => n + 1) ⟨5, []⟩ =
          .ok (OnceType.ofBool true,
            { globals := (Exec.mk 5 []).globals,
              trace := (Exec.mk 5 []).trace ++ skipTrace Nat })) ∧
      (match InitOnceSeq (OnceType.ofBool true) ⟨5, []⟩
          [(1, fun n : Nat => n + 1), (2, fun n : Nat => 2 * n)] with
        | .ok r => r.1.init_ = true ∧ r.2.globals = (Exec.mk 5 []).globals ∧
            invoked r.2.trace = invoked (Exec.mk 5 []).trace
        | .error _ => (OnceType.ofBool true).mutex_ ≠ Mutex.new ∧
            [((1 : Tid), fun n : Nat => n + 1), (2, fun n : Nat => 2 * n)] ≠ [])) :=
  ⟨rfl, initOnce_on_run_guard_skips (OnceType.ofBool true) 1 (fun n : Nat => n + 1) ⟨5, []⟩
    [(1, fun n : Nat => n + 1), (2, fun n : Nat => 2 * n)] rfl⟩

/-- C9, as stated, fails: a guard constructed from `true` has its flag set
before the first `InitOnce` call, and that first call invokes nothing. -/
theorem onceType_constructed_from_true_starts_run :
    (OnceType.ofBool true).init_ ≠ false ∧
      (OnceType.copy (OnceType.ofBool true)).init_ ≠ false ∧
      (InitOnce (OnceType.ofBool true) 0 (fun n : Nat => n + 1) ⟨0, []⟩).map
          (fun r => (r.2.globals, (invoked r.2.trace).length)) = .ok (0, 0) := by
  decide

/-- C9, amended: the flag of a new guard is the bool it is constructed from,
or the flag of the guard it is copied from, and its mutex is free; a guard
constructed from `LEVELDB_ONCE_INIT` has its flag clear and its first
`InitOnce` call runs the initializer. -/
theorem onceType_initial_flag {W : Type} (b : Bool) (once : OnceType) (t : Tid) (f : W → W)
    (e : Exec W) :
    (OnceType.ofBool b).init_ = b ∧ (OnceType.ofBool b).mutex_ = Mutex.new ∧
      (OnceType.copy once).init_ = once.init_ ∧ (OnceType.copy once).mutex_ = Mutex.new ∧
      (OnceType.ofBool LEVELDB_ONCE_INIT).init_ = false ∧
      (InitOnce (OnceType.ofBool LEVELDB_ONCE_INIT) t f e).map
          (fun r => (r.1.init_, r.2.globals, invoked r.2.trace)) =
        .ok (true, f e.globals, invoked e.trace ++ [f]) := by
  refine ⟨rfl, rfl, rfl, rfl, rfl, ?_⟩
  have h1 : InitOnce (OnceType.ofBool LEVELDB_ONCE_INIT) t f e =
      .ok ({ init_ := true, mutex_ := Mutex.new },
           { globals := f e.globals, trace := e.trace ++ runTrace f }) :=
    InitOnce_clear t f e
  rw [h1]
  simp [Except.map, invoked_append, runTrace, invoked]

/-- C10, as stated, fails: when the initializer is invoked the flag is set
already; the store to `init_` comes before the call, not after it. -/
theorem initOnce_flag_set_during_initializer :
    (InitOnce (OnceType.ofBool false) 0 (fun n : Nat => n + 1) ⟨0, []⟩).map
          (fun r => flagAtCalls false r.2.trace) ≠ .ok [false] ∧
      (InitOnce (OnceType.ofBool false) 0 (fun n : Nat => n + 1) ⟨0, []⟩).map
          (fun r => flagAtCalls false r.2.trace) = .ok [true] ∧
      (InitOnce (OnceType.ofBool false) 0 (fun n : Nat => n + 1) ⟨0, []⟩).map
          (fun r => r.2.trace) ≠
        .ok [Event.lock, Event.call (fun n : Nat => n + 1), Event.store true, Event.unlock] := by
  refine ⟨by decide, by decide, ?_⟩
  have h1 : InitOnce (OnceType.ofBool false) 0 (fun n : Nat => n + 1) ⟨0, []⟩ =
      .ok ({ init_ := true, mutex_ := Mutex.new },
           { globals := 1, trace := [] ++ runTrace (fun n : Nat => n + 1) }) :=
    InitOnce_clear 0 (fun n : Nat => n + 1) ⟨0, []⟩
  rw [h1]
  simp [Except.map, runTrace]

/-- C10, amended: on a guard whose flag is clear and whose mutex is free,
`InitOnce` returns after these steps in this order: lock the mutex, set the
flag, invoke the initializer, unlock the mutex; the flag is set while the
initializer runs, and stays set. -/
theorem initOnce_on_clear_guard_order {W : Type} (once : OnceType) (t : Tid) (f : W → W)
    (e : Exec W) (hflag : once.init_ = false) (hfree : once.mutex_ = Mutex.new) :
    InitOnce once t f e =
        .ok ({ init_ := true, mutex_ := Mutex.new },
             { globals := f e.globals,
               trace := e.trace ++
                 [Event.lock, Event.store true, Event.call f, Event.unlock] }) ∧
      flagAtCalls once.init_ [Event.lock, Event.store true, Event.call f, Event.unlock] =
        [true] := by
  obtain ⟨i, m⟩ := once
  simp only at hflag hfree
  subst hflag hfree
  exact ⟨InitOnce_clear t f e, rfl⟩

/-- C10, amended, at a concrete guard. -/
theorem initOnce_on_clear_guard_order_witness :
    (OnceType.ofBool false).init_ = false ∧ (OnceType.ofBool false).mutex_ = Mutex.new ∧
      InitOnce (OnceType.ofBool false) 3 (fun n : Nat => n + 1) ⟨5, []⟩ =
        .ok ({ init_ := true, mutex_ := Mutex.new },
             { globals := (fun n : Nat => n + 1) (Exec.mk 5 []).globals,
               trace := (Exec.mk 5 []).trace ++
                 [Event.lock, Event.store true, Event.call (fun n : Nat => n + 1),
                  Event.unlock] }) ∧
      flagAtCalls (OnceType.ofBool false).init_
          [Event.lock, Event.store true, Event.call (fun n : Nat => n + 1), Event.unlock] =
        [true] :=
  ⟨rfl, rfl, initOnce_on_clear_guard_order (OnceType.ofBool false) 3 (fun n : Nat => n + 1)
    ⟨5, []⟩ rfl rfl⟩

/-! ## The codec bridge: the claims -/

theorem length_resize (s : List CChar) (n : Nat) : (resize s n).length = n := by
  simp [resize]
  omega

theorem resize_append_length (a b : List CChar) : resize (a ++ b) a.length = a := by
  simp [resize]

/-- C3: without the compression library (`SNAPPY` not defined) the three
functions return false and leave `*output`, `*result` and the output buffer
as they were, for every input and length. -/
theorem snappy_absent_not_supported (input : List CChar) (length : Nat)
    (output : List CChar) (result : Nat) :
    Snappy_Compress none input length output = .ok (false, output) ∧
      Snappy_GetUncompressedLength none input length result = (false, result) ∧
      Snappy_Uncompress none input length output = .ok (false, output) :=
  ⟨rfl, rfl, rfl⟩

/-- C4: without checksum acceleration (`HAVE_CRC32C` not defined, or defined
as 0) `AcceleratedCRC32C` returns 0 whatever the checksum, buffer and size,
the empty buffer included. -/
theorem acceleratedCRC32C_absent_zero (Extend : Nat → List CChar → Nat → Nat) (crc : Nat)
    (buf : List CChar) (size : Nat) :
    AcceleratedCRC32C none Extend crc buf size = 0 ∧
      AcceleratedCRC32C (some 0) Extend crc buf size = 0 ∧
      AcceleratedCRC32C none Extend crc [] 0 = 0 :=
  ⟨rfl, rfl, rfl⟩

/-- C5, as stated, fails: a codec can keep within `MaxCompressedLength` and
decode what it encodes, as the claim asks, and still answer its length query
wrongly; then the buffer sized by `Snappy_GetUncompressedLength` is too short
and `Snappy_Uncompress` does not yield the input. -/
theorem snappy_roundtrip_fails_on_wrong_length_query :
    (shortLengthCodec.RawCompress [10, 20, 30] 3).length ≤
        shortLengthCodec.MaxCompressedLength 3 ∧
      shortLengthCodec.RawUncompress (shortLengthCodec.RawCompress [10, 20, 30] 3)
        (shortLengthCodec.RawCompress [10, 20, 30] 3).length = (true, [10, 20, 30]) ∧
      Snappy_Compress (some shortLengthCodec) [10, 20, 30] 3 [1] =
        .ok (true, shortLengthCodec.RawCompress [10, 20, 30] 3) ∧
      Snappy_GetUncompressedLength (some shortLengthCodec)
        (shortLengthCodec.RawCompress [10, 20, 30] 3)
        (shortLengthCodec.RawCompress [10, 20, 30] 3).length 99 = (true, 0) ∧
      ([] : List CChar).length =
        (Snappy_GetUncompressedLength (some shortLengthCodec)
          (shortLengthCodec.RawCompress [10, 20, 30] 3)
          (shortLengthCodec.RawCompress [10, 20, 30] 3).length 99).2 ∧
      Snappy_Uncompress (some shortLengthCodec) (shortLengthCodec.RawCompress [10, 20, 30] 3)
        (shortLengthCodec.RawCompress [10, 20, 30] 3).length [] ≠ .ok (true, [10, 20, 30]) ∧
      Snappy_Uncompress (some shortLengthCodec) (shortLengthCodec.RawCompress [10, 20, 30] 3)
        (shortLengthCodec.RawCompress [10, 20, 30] 3).length [] = .error .undefined := by
  decide

/-- C5, amended: with the compression library present, if on the input `s` the
codec writes at most `MaxCompressedLength` bytes, its decoder inverts its
encoder, and its length query on the encoded bytes answers the length of `s`,
then `Snappy_Compress` returns true with exactly
the bytes the codec wrote (as many as it reported), `Snappy_GetUncompressedLength`
on them gives the length of `s`, and `Snappy_Uncompress` into a buffer of that
length returns true and fills it with `s`. -/
theorem snappy_compress_uncompress_roundtrip (lib : snappy) (s output : List CChar)
    (result : Nat) (buf : List CChar)
    (hmax : (lib.RawCompress s s.length).length ≤ lib.MaxCompressedLength s.length)
    (hlen : lib.GetUncompressedLength (lib.RawCompress s s.length)
        (lib.RawCompress s s.length).length result = (true, s.length))
    (hinv : lib.RawUncompress (lib.RawCompress s s.length)
        (lib.RawCompress s s.length).length = (true, s))
    (hbuf : buf.length = (Snappy_GetUncompressedLength (some lib) (lib.RawCompress s s.length)
        (lib.RawCompress s s.length).length result).2) :
    Snappy_Compress (some lib) s s.length output = .ok (true, lib.RawCompress s s.length) ∧
      Snappy_GetUncompressedLength (some lib) (lib.RawCompress s s.length)
        (lib.RawCompress s s.length).length result = (true, s.length) ∧
      Snappy_Uncompress (some lib) (lib.RawCompress s s.length)
        (lib.RawCompress s s.length).length buf = .ok (true, s) := by
  have hq : Snappy_GetUncompressedLength (some lib) (lib.RawCompress s s.length)
      (lib.RawCompress s s.length).length result = (true, s.length) := by
    simp [Snappy_GetUncompressedLength, hlen]
  rw [hq] at hbuf
  simp only at hbuf
  refine ⟨?_, hq, ?_⟩
  · simp only [Snappy_Compress, writeTo, length_resize, hmax, if_true, bind, Except.bind, pure,
      Except.pure, resize_append_length]
  · simp [Snappy_Uncompress, hinv, writeTo, hbuf, bind, Except.bind, pure, Except.pure]

/-- C5, amended, on the stored codec, for a three-byte input. -/
theorem snappy_compress_uncompress_roundtrip_witness :
    (storedCodec.RawCompress [10, 20, 30] 3).length ≤ storedCodec.MaxCompressedLength 3 ∧
      storedCodec.GetUncompressedLength (storedCodec.RawCompress [10, 20, 30] 3)
        (storedCodec.RawCompress [10, 20, 30] 3).length 99 = (true, 3) ∧
      storedCodec.RawUncompress (storedCodec.RawCompress [10, 20, 30] 3)
        (storedCodec.RawCompress [10, 20, 30] 3).length = (true, [10, 20, 30]) ∧
      ([7, 7, 7] : List CChar).length =
        (Snappy_GetUncompressedLength (some storedCodec)
          (storedCodec.RawCompress [10, 20, 30] 3)
          (storedCodec.RawCompress [10, 20, 30] 3).length 99).2 ∧
      Snappy_Compress (some storedCodec) [10, 20, 30] 3 [1] =
        .ok (true, storedCodec.RawCompress [10, 20, 30] 3) ∧
      Snappy_GetUncompressedLength (some storedCodec) (storedCodec.RawCompress [10, 20, 30] 3)
        (storedCodec.RawCompress [10, 20, 30] 3).length 99 = (true, 3) ∧
      Snappy_Uncompress (some storedCodec) (storedCodec.RawCompress [10, 20, 30] 3)
        (storedCodec.RawCompress [10, 20, 30] 3).length [7, 7, 7] = .ok (true, [10, 20, 30]) :=
  ⟨by decide, by decide, by decide, by decide,
    snappy_compress_uncompress_roundtrip storedCodec [10, 20, 30] [1] 99 [7, 7, 7]
      (by decide) (by decide) (by decide) (by decide)⟩

/-! ## CondVar: the claims -/

/-- What `Wait` returns when the caller holds the bound mutex: the CondVar as
it was, and the heap the other threads left, with the mutex locked again by
the caller; it returns when the other threads left that mutex free. -/
theorem Wait_held (cv : CondVar) (t : Tid) (others : Heap → Heap) (h : Heap) (p : Nat)
    (hbound : cv.mu_ = some p) (hheld : h p = some { mu_ := { owner := some t } })
    (hfree : others (Function.update h p (some Mutex.new)) p = some Mutex.new) :
    cv.Wait t others h =
      .ok (cv, Function.update (others (Function.update h p (some Mutex.new))) p
        (some { mu_ := { owner := some t } })) := by
  obtain ⟨c, mu⟩ := cv
  simp only at hbound
  subst hbound
  simp [CondVar.Wait, hheld, condition_variable.wait, unique_lock.adopt, unique_lock.unlock,
    unique_lock.lock, unique_lock.release, unique_lock.destroy, Mutex.Lock, Mutex.Unlock,
    std_mutex.lock, std_mutex.unlock, bind, Except.bind, pure, Except.pure]
  have hfree2 : others (Function.update h p (some { mu_ := { owner := none } })) p =
      some { mu_ := { owner := none } } := hfree
  simp [hfree2]
  rfl

/-- Every operation that returns leaves the pointer `mu_` as it was. -/
theorem Wait_mu_ (cv : CondVar) (t : Tid) (others : Heap → Heap) (h : Heap)
    (r : CondVar × Heap) (hr : cv.Wait t others h = .ok r) : r.1.mu_ = cv.mu_ := by
  obtain ⟨c, mu⟩ := cv
  cases mu with
  | none => simp [CondVar.Wait] at hr
  | some p =>
    cases hp : h p with
    | none => simp [CondVar.Wait, hp] at hr
    | some m =>
      simp only [CondVar.Wait, hp, bind, Except.bind] at hr
      split at hr
      · simp at hr
      · split at hr
        · simp at hr
        · simp only [pure, Except.pure, Except.ok.injEq] at hr
          rw [← hr]

theorem apply_mu_ (cv : CondVar) (h : Heap) (op : CondVarOp) (r : CondVar × Heap)
    (hr : cv.apply h op = .ok r) : r.1.mu_ = cv.mu_ := by
  cases op with
  | wait t others => exact Wait_mu_ cv t others h r hr
  | signal pick =>
    simp only [CondVar.apply, Except.ok.injEq] at hr
    rw [← hr]; rfl
  | signalAll =>
    simp only [CondVar.apply, Except.ok.injEq] at hr
    rw [← hr]; rfl

theorem applyAll_mu_ (ops : List CondVarOp) (cv : CondVar) (h : Heap) (r : CondVar × Heap)
    (hr : cv.applyAll h ops = .ok r) : r.1.mu_ = cv.mu_ := by
  induction ops generalizing cv h with
  | nil =>
    simp only [CondVar.applyAll, Except.ok.injEq] at hr
    rw [← hr]
  | cons op rest ih =>
    rw [CondVar.applyAll] at hr
    cases h1 : cv.apply h op with
    | error x => rw [h1] at hr; simp at hr
    | ok r1 =>
      rw [h1] at hr
      obtain ⟨cv1, hp1⟩ := r1
      simp only at hr
      rw [ih cv1 hp1 hr]
      exact apply_mu_ cv h op (cv1, hp1) h1

/-- `Wait` fails to return when the other threads leave the bound mutex
locked, or destroyed. -/
theorem Wait_not_free (cv : CondVar) (t : Tid) (others : Heap → Heap) (h : Heap) (p : Nat)
    (hbound : cv.mu_ = some p) (hheld : h p = some { mu_ := { owner := some t } })
    (hfree : others (Function.update h p (some Mutex.new)) p ≠ some Mutex.new) :
    ∃ x, cv.Wait t others h = .error x := by
  obtain ⟨c, mu⟩ := cv
  simp only at hbound
  subst hbound
  have hfree2 : others (Function.update h p (some { mu_ := { owner := none } })) p ≠
      some { mu_ := { owner := none } } := hfree
  cases hq : others (Function.update h p (some { mu_ := { owner := none } })) p with
  | none =>
    simp [CondVar.Wait, hheld, condition_variable.wait, unique_lock.adopt, unique_lock.unlock,
      unique_lock.lock, Mutex.Unlock, std_mutex.unlock, bind, Except.bind, pure, Except.pure, hq]
  | some m =>
    obtain ⟨⟨o⟩⟩ := m
    cases o with
    | none => exact absurd hq hfree2
    | some o =>
      by_cases ho : o = t <;>
        simp [CondVar.Wait, hheld, condition_variable.wait, unique_lock.adopt,
          unique_lock.unlock, unique_lock.lock, Mutex.Lock, Mutex.Unlock, std_mutex.lock,
          std_mutex.unlock, bind, Except.bind, pure, Except.pure, hq, ho]

/-- C6: if the calling thread `t` holds the mutex bound to the CondVar when
it calls `Wait`, then whenever `Wait` returns, `t` holds that mutex again:
the mutex is as it was on entry, the CondVar is unchanged, and every other
Mutex is as the other threads left it while `t` was suspended.  `Wait`
returns exactly when the other threads leave the mutex free, and with no
other thread acting the whole heap is as it was on entry. -/
theorem condVar_wait_returns_holding_mutex (cv : CondVar) (t : Tid) (others : Heap → Heap)
    (h : Heap) (p : Nat) (m : Mutex)
    (hbound : cv.mu_ = some p) (hobj : h p = some m) (hheld : m.mu_.owner = some t) :
    (match cv.Wait t others h with
      | .ok r => r.1 = cv ∧ r.2 p = h p ∧
          (r.2 p).map (fun x => x.mu_.owner) = some (some t) ∧
          r.2 = Function.update (others (Function.update h p (some Mutex.new))) p (h p) ∧
          others (Function.update h p (some Mutex.new)) p = some Mutex.new
      | .error _ => others (Function.update h p (some Mutex.new)) p ≠ some Mutex.new) ∧
      (others (Function.update h p (some Mutex.new)) p = some Mutex.new →
        cv.Wait t others h =
          .ok (cv, Function.update (others (Function.update h p (some Mutex.new))) p (h p))) ∧
      cv.Wait t id h = .ok (cv, h) := by
  obtain ⟨⟨o⟩⟩ := m
  simp only at hheld
  subst hheld
  have h2 := Wait_held cv t id h p hbound hobj (by simp)
  refine ⟨?_, ?_, ?_⟩
  · by_cases hfree : others (Function.update h p (some Mutex.new)) p = some Mutex.new
    · rw [Wait_held cv t others h p hbound hobj hfree]
      simp [hobj, hfree]
    · obtain ⟨x, hx⟩ := Wait_not_free cv t others h p hbound hobj hfree
      rw [hx]
      exact hfree
  · intro hfree
    rw [Wait_held cv t others h p hbound hobj hfree, hobj]
  · rw [h2]
    simp only [id, Function.update_idem]
    rw [← hobj, Function.update_eq_self]

/-- C6 on a heap with one Mutex, held by the caller, thread 3. -/
theorem condVar_wait_returns_holding_mutex_witness :
    (CondVar.mk condition_variable.new (some 7)).mu_ = some 7 ∧
      heapWithHeldMutex 7 = some { mu_ := { owner := some 3 } } ∧
      (Mutex.mk { owner := some 3 }).mu_.owner = some 3 ∧
      ((match (CondVar.mk condition_variable.new (some 7)).Wait 3 id heapWithHeldMutex with
        | .ok r => r.1 = CondVar.mk condition_variable.new (some 7) ∧
            r.2 7 = heapWithHeldMutex 7 ∧
            (r.2 7).map (fun x => x.mu_.owner) = some (some 3) ∧
            r.2 = Function.update (id (Function.update heapWithHeldMutex 7 (some Mutex.new))) 7
              (heapWithHeldMutex 7) ∧
            id (Function.update heapWithHeldMutex 7 (some Mutex.new)) 7 = some Mutex.new
        | .error _ =>
            id (Function.update heapWithHeldMutex 7 (some Mutex.new)) 7 ≠ some Mutex.new) ∧
      (id (Function.update heapWithHeldMutex 7 (some Mutex.new)) 7 = some Mutex.new →
        (CondVar.mk condition_variable.new (some 7)).Wait 3 id heapWithHeldMutex =
          .ok (CondVar.mk condition_variable.new (some 7),
            Function.update (id (Function.update heapWithHeldMutex 7 (some Mutex.new))) 7
              (heapWithHeldMutex 7))) ∧
      (CondVar.mk condition_variable.new (some 7)).Wait 3 id heapWithHeldMutex =
        .ok (CondVar.mk condition_variable.new (some 7), heapWithHeldMutex)) :=
  ⟨rfl, by decide, rfl,
    condVar_wait_returns_holding_mutex (CondVar.mk condition_variable.new (some 7)) 3 id
      heapWithHeldMutex 7 { mu_ := { owner := some 3 } } rfl (by decide) rfl⟩

/-- C7, as stated, fails: when `NDEBUG` is defined the constructor does not
abort on a null pointer; it returns a CondVar bound to no mutex. -/
theorem condVar_new_null_with_NDEBUG :
    CondVar.new true nullptr ≠ .error .abort ∧
      CondVar.new true nullptr = .ok { cv_ := condition_variable.new, mu_ := nullptr } := by
  decide

/-- C7, amended: with assertions enabled (`NDEBUG` not defined) the
constructor aborts if and only if it is given the null pointer; when `NDEBUG`
is defined it never aborts and stores the pointer it is given; for every
non-null pointer it returns a CondVar bound to exactly that mutex; and no
sequence of `Wait`, `Signal` and `SignalAll` that returns changes `mu_`. -/
theorem condVar_new_binds_mutex (NDEBUG : Bool) (mu : MutexPtr) (p : Nat) (cv : CondVar)
    (h : Heap) (ops : List CondVarOp) :
    (CondVar.new false mu = .error .abort ↔ mu = nullptr) ∧
      CondVar.new true mu = .ok { cv_ := condition_variable.new, mu_ := mu } ∧
      CondVar.new NDEBUG (some p) = .ok { cv_ := condition_variable.new, mu_ := some p } ∧
      (match cv.applyAll h ops with
        | .ok r => r.1.mu_ = cv.mu_
        | .error _ => True) := by
  refine ⟨?_, ?_, ?_, ?_⟩
  · cases mu <;> simp [CondVar.new, assert, nullptr, bind, Except.bind, pure, Except.pure]
  · simp [CondVar.new, assert, bind, Except.bind, pure, Except.pure]
  · cases NDEBUG <;> simp [CondVar.new, assert, nullptr, bind, Except.bind, pure, Except.pure]
  · cases hr : cv.applyAll h ops with
    | error x => trivial
    | ok r => exact applyAll_mu_ ops cv h r hr

/-! ## InitOnce under concurrent callers: the claim -/

theorem Inv_init {W : Type} (N : Nat) (fs : Tid → W → W) (w : W) : Inv N fs w (Sys.init w) := by
  refine ⟨fun _ _ => rfl, fun t h => absurd rfl h, fun t h => ?_, Or.inl ⟨rfl, rfl, rfl, fun _ => Or.inl rfl⟩⟩
  simp [Sys.init, OnceType.ofBool, Mutex.new] at h

theorem Inv_step {W : Type} (N : Nat) (fs : Tid → W → W) (w : W) (s s1 : Sys W) (t : Tid)
    (hinv : Inv N fs w s) (hstep : s.step N fs t = some s1) : Inv N fs w s1 := by
  obtain ⟨⟨i, ⟨⟨o⟩⟩⟩, g, pc, log⟩ := s
  obtain ⟨hrange, hexcl, hheld, hphase⟩ := hinv
  simp only at hrange hexcl hheld hphase
  unfold Sys.step at hstep
  by_cases htN : t < N
  swap
  · simp [htN] at hstep
  simp only [htN, if_true] at hstep
  have hne : ∀ u, N ≤ u → u ≠ t := fun u hu h => by
    subst h; exact absurd htN (Nat.not_lt.mpr hu)
  cases hpc : pc t with
  | atLock =>
    simp only [hpc] at hstep
    cases o with
    | some o' =>
      by_cases ho : o' = t <;> simp [Mutex.Lock, std_mutex.lock, ho, bind, Except.bind] at hstep
    | none =>
      simp [Mutex.Lock, std_mutex.lock, bind, Except.bind, pure, Except.pure] at hstep
      subst hstep
      have hall : ∀ u, pc u = Pc.atLock ∨ pc u = Pc.returned := by
        intro u
        by_contra hc
        push_neg at hc
        have := hexcl u hc.1 hc.2
        simp at this
      refine ⟨?_, ?_, ?_, ?_⟩
      · intro u hu
        simp [Function.update_noteq (hne u hu), hrange u hu]
      · intro u h1 h2
        rcases eq_or_ne u t with rfl | hu
        · rfl
        · simp only [Function.update_noteq hu] at h1 h2
          rcases hall u with h | h
          · exact absurd h h1
          · exact absurd h h2
      · intro u hu
        simp at hu
        subst hu
        simp
      · rcases hphase with ⟨h1, h2, h3, h4⟩ | ⟨h1, h2, h3, t0, h4, h5⟩ | ⟨h1, h3, t0, h2, h4, h5⟩ |
          ⟨h1, t0, rets, h2, h3, h4, h5, h6⟩
        · refine Or.inl ⟨h1, h2, h3, fun u => ?_⟩
          rcases eq_or_ne u t with rfl | hu
          · simp
          · simp [Function.update_noteq hu, h4 u]
        · rcases hall t0 with h | h <;> simp [h4] at h
        · rcases hall t0 with h | h <;> simp [h4] at h
        · refine Or.inr (Or.inr (Or.inr ⟨h1, t0, rets, h2, h3, h4, fun u => ?_, fun u => ?_⟩))
          · rcases eq_or_ne u t with rfl | hu
            · simp
            · simp [Function.update_noteq hu, h5 u]
          · rcases eq_or_ne u t with rfl | hu
            · simp
            · simp only [Function.update_noteq hu]; exact h6 u
  | atTest =>
    simp only [hpc, Option.some.injEq] at hstep
    subst hstep
    have hown : o = some t := hexcl t (by simp [hpc]) (by simp [hpc])
    subst hown
    have hother : ∀ u, u ≠ t → pc u = Pc.atLock ∨ pc u = Pc.returned := by
      intro u hu
      by_contra hc
      push_neg at hc
      have := hexcl u hc.1 hc.2
      simp at this
      exact hu this.symm
    refine ⟨?_, ?_, ?_, ?_⟩
    · intro u hu
      simp [Function.update_noteq (hne u hu), hrange u hu]
    · intro u h1 h2
      rcases eq_or_ne u t with rfl | hu
      · rfl
      · simp only [Function.update_noteq hu] at h1 h2
        rcases hother u hu with h | h
        · exact absurd h h1
        · exact absurd h h2
    · intro u hu
      simp at hu
      subst hu
      cases i <;> simp
    · rcases hphase with ⟨h1, h2, h3, h4⟩ | ⟨h1, h2, h3, t0, h4, h5⟩ | ⟨h1, h3, t0, h2, h4, h5⟩ |
        ⟨h1, t0, rets, h2, h3, h4, h5, h6⟩
      · subst h1
        refine Or.inl ⟨rfl, h2, h3, fun u => ?_⟩
        rcases eq_or_ne u t with rfl | hu
        · simp
        · simp [Function.update_noteq hu, h4 u]
      · exfalso
        rcases eq_or_ne t t0 with rfl | hu
        · simp [hpc] at h4
        · simp [h5 t hu] at hpc
      · exfalso
        rcases eq_or_ne t t0 with rfl | hu
        · simp [hpc] at h4
        · simp [h5 t hu] at hpc
      · subst h1
        refine Or.inr (Or.inr (Or.inr ⟨rfl, t0, rets, h2, h3, h4, fun u => ?_, fun u => ?_⟩))
        · rcases eq_or_ne u t with rfl | hu
          · simp
          · simp [Function.update_noteq hu, h5 u]
        · rcases eq_or_ne u t with rfl | hu
          · simp
          · simp only [Function.update_noteq hu]; exact h6 u
  | atStore =>
    simp only [hpc, Option.some.injEq] at hstep
    subst hstep
    have hown : o = some t := hexcl t (by simp [hpc]) (by simp [hpc])
    subst hown
    have hother : ∀ u, u ≠ t → pc u = Pc.atLock ∨ pc u = Pc.returned := by
      intro u hu
      by_contra hc
      push_neg at hc
      have := hexcl u hc.1 hc.2
      simp at this
      exact hu this.symm
    refine ⟨?_, ?_, ?_, ?_⟩
    · intro u hu
      simp [Function.update_noteq (hne u hu), hrange u hu]
    · intro u h1 h2
      rcases eq_or_ne u t with rfl | hu
      · rfl
      · simp only [Function.update_noteq hu] at h1 h2
        rcases hother u hu with h | h
        · exact absurd h h1
        · exact absurd h h2
    · intro u hu
      simp at hu
      subst hu
      simp
    · rcases hphase with ⟨h1, h2, h3, h4⟩ | ⟨h1, h2, h3, t0, h4, h5⟩ | ⟨h1, h3, t0, h2, h4, h5⟩ |
        ⟨h1, t0, rets, h2, h3, h4, h5, h6⟩
      · refine Or.inr (Or.inl ⟨rfl, h2, h3, t, by simp, fun u hu => ?_⟩)
        simp only [Function.update_noteq hu]
        rcases hother u hu with h | h
        · exact h
        · rcases h4 u with h' | h' | h' <;> simp [h] at h'
      · exfalso
        rcases eq_or_ne t t0 with rfl | hu
        · simp [hpc] at h4
        · simp [h5 t hu] at hpc
      · exfalso
        rcases eq_or_ne t t0 with rfl | hu
        · simp [hpc] at h4
        · simp [h5 t hu] at hpc
      · exfalso
        rcases h5 t with h' | h' | h' | h' <;> simp [hpc] at h'
  | atCall =>
    simp only [hpc, Option.some.injEq] at hstep
    subst hstep
    have hown : o = some t := hexcl t (by simp [hpc]) (by simp [hpc])
    subst hown
    have hother : ∀ u, u ≠ t → pc u = Pc.atLock ∨ pc u = Pc.returned := by
      intro u hu
      by_contra hc
      push_neg at hc
      have := hexcl u hc.1 hc.2
      simp at this
      exact hu this.symm
    refine ⟨?_, ?_, ?_, ?_⟩
    · intro u hu
      simp [Function.update_noteq (hne u hu), hrange u hu]
    · intro u h1 h2
      rcases eq_or_ne u t with rfl | hu
      · rfl
      · simp only [Function.update_noteq hu] at h1 h2
        rcases hother u hu with h | h
        · exact absurd h h1
        · exact absurd h h2
    · intro u hu
      simp at hu
      subst hu
      simp
    · rcases hphase with ⟨h1, h2, h3, h4⟩ | ⟨h1, h2, h3, t0, h4, h5⟩ | ⟨h1, h3, t0, h2, h4, h5⟩ |
        ⟨h1, t0, rets, h2, h3, h4, h5, h6⟩
      · exfalso
        rcases h4 t with h' | h' | h' <;> simp [hpc] at h'
      · have ht : t = t0 := by
          by_contra hu
          simp [h5 t hu] at hpc
        subst ht
        refine Or.inr (Or.inr (Or.inl ⟨h1, h3, t, by simp [h2], by simp, fun u hu => ?_⟩))
        simp only [Function.update_noteq hu]
        exact h5 u hu
      · exfalso
        rcases eq_or_ne t t0 with rfl | hu
        · simp [hpc] at h4
        · simp [h5 t hu] at hpc
      · exfalso
        rcases h5 t with h' | h' | h' | h' <;> simp [hpc] at h'
  | inCall =>
    simp only [hpc, Option.some.injEq] at hstep
    subst hstep
    have hown : o = some t := hexcl t (by simp [hpc]) (by simp [hpc])
    subst hown
    have hother : ∀ u, u ≠ t → pc u = Pc.atLock ∨ pc u = Pc.returned := by
      intro u hu
      by_contra hc
      push_neg at hc
      have := hexcl u hc.1 hc.2
      simp at this
      exact hu this.symm
    refine ⟨?_, ?_, ?_, ?_⟩
    · intro u hu
      simp [Function.update_noteq (hne u hu), hrange u hu]
    · intro u h1 h2
      rcases eq_or_ne u t with rfl | hu
      · rfl
      · simp only [Function.update_noteq hu] at h1 h2
        rcases hother u hu with h | h
        · exact absurd h h1
        · exact absurd h h2
    · intro u hu
      simp at hu
      subst hu
      simp
    · rcases hphase with ⟨h1, h2, h3, h4⟩ | ⟨h1, h2, h3, t0, h4, h5⟩ | ⟨h1, h3, t0, h2, h4, h5⟩ |
        ⟨h1, t0, rets, h2, h3, h4, h5, h6⟩
      · exfalso
        rcases h4 t with h' | h' | h' <;> simp [hpc] at h'
      · exfalso
        rcases eq_or_ne t t0 with rfl | hu
        · simp [hpc] at h4
        · simp [h5 t hu] at hpc
      · have ht : t = t0 := by
          by_contra hu
          simp [h5 t hu] at hpc
        subst ht
        refine Or.inr (Or.inr (Or.inr ⟨h1, t, [], htN, by simp [h2, ranOnceThen], by simp [h3],
          fun u => ?_, fun u => ?_⟩))
        · rcases eq_or_ne u t with rfl | hu
          · simp
          · simp [Function.update_noteq hu, h5 u hu]
        · rcases eq_or_ne u t with rfl | hu
          · simp
          · simp [Function.update_noteq hu, h5 u hu]
      · exfalso
        rcases h5 t with h' | h' | h' | h' <;> simp [hpc] at h'
  | atUnlock =>
    simp only [hpc] at hstep
    have hown : o = some t := hexcl t (by simp [hpc]) (by simp [hpc])
    subst hown
    simp [Mutex.Unlock, std_mutex.unlock, bind, Except.bind, pure, Except.pure] at hstep
    subst hstep
    have hother : ∀ u, u ≠ t → pc u = Pc.atLock ∨ pc u = Pc.returned := by
      intro u hu
      by_contra hc
      push_neg at hc
      have := hexcl u hc.1 hc.2
      simp at this
      exact hu this.symm
    refine ⟨?_, ?_, ?_, ?_⟩
    · intro u hu
      simp [Function.update_noteq (hne u hu), hrange u hu]
    · intro u h1 h2
      exfalso
      rcases eq_or_ne u t with rfl | hu
      · simp at h2
      · simp only [Function.update_noteq hu] at h1 h2
        rcases hother u hu with h | h
        · exact absurd h h1
        · exact absurd h h2
    · intro u hu
      simp at hu
    · rcases hphase with ⟨h1, h2, h3, h4⟩ | ⟨h1, h2, h3, t0, h4, h5⟩ | ⟨h1, h3, t0, h2, h4, h5⟩ |
        ⟨h1, t0, rets, h2, h3, h4, h5, h6⟩
      · exfalso
        rcases h4 t with h' | h' | h' <;> simp [hpc] at h'
      · exfalso
        rcases eq_or_ne t t0 with rfl | hu
        · simp [hpc] at h4
        · simp [h5 t hu] at hpc
      · exfalso
        rcases eq_or_ne t t0 with rfl | hu
        · simp [hpc] at h4
        · simp [h5 t hu] at hpc
      · refine Or.inr (Or.inr (Or.inr ⟨h1, t0, rets ++ [t], h2, by simp [h3, ranOnceThen], h4,
          fun u => ?_, fun u => ?_⟩))
        · rcases eq_or_ne u t with rfl | hu
          · simp
          · simp [Function.update_noteq hu, h5 u]
        · rcases eq_or_ne u t with rfl | hu
          · simp
          · simp only [Function.update_noteq hu]
            intro h
            simp [h6 u h]
  | returned => simp [hpc] at hstep

theorem Inv_run {W : Type} (N : Nat) (fs : Tid → W → W) (w : W) (sched : List Tid) (s : Sys W)
    (hinv : Inv N fs w s) : Inv N fs w (Sys.run N fs s sched) := by
  induction sched generalizing s with
  | nil => exact hinv
  | cons t rest ih =>
    rw [Sys.run]
    cases hstep : s.step N fs t with
    | none => exact ih s hinv
    | some s1 => exact ih s1 (Inv_step N fs w s s1 t hinv hstep)

theorem run_append {W : Type} (N : Nat) (fs : Tid → W → W) (a b : List Tid) (s : Sys W) :
    Sys.run N fs s (a ++ b) = Sys.run N fs (Sys.run N fs s a) b := by
  induction a generalizing s with
  | nil => rfl
  | cons t rest ih =>
    simp only [List.cons_append, Sys.run]
    cases s.step N fs t with
    | none => exact ih s
    | some s1 => exact ih s1

/-- In a reachable state a thread whose call has returned sees the completed
run of one initializer. -/
theorem Inv_returned {W : Type} (N : Nat) (fs : Tid → W → W) (w : W) (s : Sys W)
    (hinv : Inv N fs w s) (u : Tid) (hu : s.pc u = Pc.returned) :
    ∃ t rets, t < N ∧ s.log = ranOnceThen t rets ∧ u ∈ rets ∧ s.globals = fs t w := by
  obtain ⟨_, _, _, hphase⟩ := hinv
  rcases hphase with ⟨_, _, _, h4⟩ | ⟨_, _, _, t0, h4, h5⟩ | ⟨_, _, t0, _, h4, h5⟩ |
    ⟨_, t0, rets, h2, h3, h4, _, h6⟩
  · rcases h4 u with h | h | h <;> simp [hu] at h
  · rcases eq_or_ne u t0 with rfl | hne
    · simp [hu] at h4
    · simp [h5 u hne] at hu
  · rcases eq_or_ne u t0 with rfl | hne
    · simp [hu] at h4
    · simp [h5 u hne] at hu
  · exact ⟨t0, rets, h2, h3, h6 u hu, h4⟩

/-- The log of a reachable state has one of three shapes. -/
theorem Inv_log {W : Type} (N : Nat) (fs : Tid → W → W) (w : W) (s : Sys W)
    (hinv : Inv N fs w s) :
    (s.log = [] ∧ s.globals = w) ∨
      (∃ t, t < N ∧ s.log = [Obs.started t] ∧ s.globals = w) ∨
      (∃ t rets, t < N ∧ s.log = ranOnceThen t rets ∧ s.globals = fs t w) := by
  obtain ⟨hrange, _, _, hphase⟩ := hinv
  rcases hphase with ⟨_, h2, h3, _⟩ | ⟨_, h2, h3, _⟩ | ⟨_, h3, t0, h2, h4, _⟩ |
    ⟨_, t0, rets, h2, h3, h4, _, _⟩
  · exact Or.inl ⟨h2, h3⟩
  · exact Or.inl ⟨h2, h3⟩
  · refine Or.inr (Or.inl ⟨t0, ?_, h2, h3⟩)
    by_contra hc
    have := hrange t0 (Nat.le_of_not_lt hc)
    simp [h4] at this
  · exact Or.inr (Or.inr ⟨t0, rets, h2, h3, h4⟩)

/-- In a reachable state with a call that has not returned, some thread has
a step. -/
theorem Inv_progress {W : Type} (N : Nat) (fs : Tid → W → W) (w : W) (s : Sys W)
    (hinv : Inv N fs w s) (hlive : ∃ u, u < N ∧ s.pc u ≠ Pc.returned) :
    ∃ t, t < N ∧ (s.step N fs t).isSome = true := by
  obtain ⟨⟨i, ⟨⟨o⟩⟩⟩, g, pc, log⟩ := s
  obtain ⟨hrange, hexcl, hheld, _⟩ := hinv
  simp only at hrange hexcl hheld
  obtain ⟨u, huN, hu⟩ := hlive
  simp only at hu
  cases o with
  | none =>
    have hpc : pc u = Pc.atLock := by
      by_contra hc
      have := hexcl u hc hu
      simp at this
    refine ⟨u, huN, ?_⟩
    simp [Sys.step, huN, hpc, Mutex.Lock, std_mutex.lock, bind, Except.bind, pure, Except.pure]
  | some t =>
    obtain ⟨h1, h2⟩ := hheld t rfl
    have htN : t < N := by
      by_contra hc
      exact h1 (hrange t (Nat.le_of_not_lt hc))
    refine ⟨t, htN, ?_⟩
    cases hpc : pc t with
    | atLock => exact absurd hpc h1
    | returned => exact absurd hpc h2
    | atTest => simp [Sys.step, htN, hpc]
    | atStore => simp [Sys.step, htN, hpc]
    | atCall => simp [Sys.step, htN, hpc]
    | inCall => simp [Sys.step, htN, hpc]
    | atUnlock =>
      simp [Sys.step, htN, hpc, Mutex.Unlock, std_mutex.unlock, bind, Except.bind, pure,
        Except.pure]

theorem remaining_update_ge (pc : Tid → Pc) (t : Tid) (x : Pc) (n : Nat) (h : n ≤ t) :
    remaining (Function.update pc t x) n = remaining pc n := by
  induction n with
  | zero => rfl
  | succ k ih =>
    have hk : k ≠ t := fun hc => by subst hc; exact absurd h (Nat.not_succ_le_self _)
    simp [remaining, ih (Nat.le_of_succ_le h), Function.update_noteq hk]

theorem remaining_update_lt (pc : Tid → Pc) (t : Tid) (x : Pc) (n : Nat) (h : t < n)
    (hx : x.weight < (pc t).weight) :
    remaining (Function.update pc t x) n < remaining pc n := by
  induction n with
  | zero => exact absurd h (Nat.not_lt_zero _)
  | succ k ih =>
    rcases Nat.lt_succ_iff_lt_or_eq.mp h with hlt | heq
    · have hk : k ≠ t := fun hc => by subst hc; exact absurd hlt (Nat.lt_irrefl _)
      have := ih hlt
      simp only [remaining, Function.update_noteq hk]
      omega
    · subst heq
      simp only [remaining, Function.update_same, remaining_update_ge pc t x t (Nat.le_refl _)]
      omega

/-- Every step brings the threads closer to the end. -/
theorem step_remaining {W : Type} (N : Nat) (fs : Tid → W → W) (s s1 : Sys W) (t : Tid)
    (hstep : s.step N fs t = some s1) : remaining s1.pc N < remaining s.pc N := by
  obtain ⟨⟨i, ⟨⟨o⟩⟩⟩, g, pc, log⟩ := s
  unfold Sys.step at hstep
  by_cases htN : t < N
  swap
  · simp [htN] at hstep
  simp only [htN, if_true] at hstep
  cases hpc : pc t with
  | atLock =>
    simp only [hpc] at hstep
    cases o with
    | some o1 =>
      by_cases ho : o1 = t <;> simp [Mutex.Lock, std_mutex.lock, ho, bind, Except.bind] at hstep
    | none =>
      simp [Mutex.Lock, std_mutex.lock, bind, Except.bind, pure, Except.pure] at hstep
      subst hstep
      exact remaining_update_lt pc t _ N htN (by simp [hpc, Pc.weight])
  | atTest =>
    simp only [hpc, Option.some.injEq] at hstep
    subst hstep
    exact remaining_update_lt pc t _ N htN (by cases i <;> simp [hpc, Pc.weight])
  | atStore =>
    simp only [hpc, Option.some.injEq] at hstep
    subst hstep
    exact remaining_update_lt pc t _ N htN (by simp [hpc, Pc.weight])
  | atCall =>
    simp only [hpc, Option.some.injEq] at hstep
    subst hstep
    exact remaining_update_lt pc t _ N htN (by simp [hpc, Pc.weight])
  | inCall =>
    simp only [hpc, Option.some.injEq] at hstep
    subst hstep
    exact remaining_update_lt pc t _ N htN (by simp [hpc, Pc.weight])
  | atUnlock =>
    simp only [hpc] at hstep
    by_cases ho : o = some t
    · subst ho
      simp [Mutex.Unlock, std_mutex.unlock, bind, Except.bind, pure, Except.pure] at hstep
      subst hstep
      exact remaining_update_lt pc t _ N htN (by simp [hpc, Pc.weight])
    · simp [Mutex.Unlock, std_mutex.unlock, ho, bind, Except.bind] at hstep
  | returned => simp [hpc] at hstep

/-- From every reachable state the scheduler can let all calls return. -/
theorem Inv_complete {W : Type} (N : Nat) (fs : Tid → W → W) (w : W) (k : Nat) (s : Sys W)
    (hinv : Inv N fs w s) (hk : remaining s.pc N ≤ k) :
    ∃ more, ∀ u, u < N → (Sys.run N fs s more).pc u = Pc.returned := by
  induction k generalizing s with
  | zero =>
    by_cases hall : ∀ u, u < N → s.pc u = Pc.returned
    · exact ⟨[], hall⟩
    · push_neg at hall
      obtain ⟨t, _, ht⟩ := Inv_progress N fs w s hinv hall
      cases hstep : s.step N fs t with
      | none => simp [hstep] at ht
      | some s1 =>
        have := step_remaining N fs s s1 t hstep
        omega
  | succ k ih =>
    by_cases hall : ∀ u, u < N → s.pc u = Pc.returned
    · exact ⟨[], hall⟩
    · push_neg at hall
      obtain ⟨t, _, ht⟩ := Inv_progress N fs w s hinv hall
      cases hstep : s.step N fs t with
      | none => simp [hstep] at ht
      | some s1 =>
        have hlt := step_remaining N fs s s1 t hstep
        obtain ⟨more, hmore⟩ := ih s1 (Inv_step N fs w s s1 t hinv hstep) (by omega)
        refine ⟨t :: more, ?_⟩
        simpa [Sys.run, hstep] using hmore

/-- C8: `N >= 1` threads call `InitOnce` concurrently on one guard constructed
with `LEVELDB_ONCE_INIT`, thread `t` with the initializer `fs t`; the body of
`InitOnce` runs one line per step, in any interleaving `sched`.  At every
point of every interleaving at most one initializer has been started, and a
call has returned only after that one run has completed; while a call has
not returned some thread has a step, every step brings the end closer, and
every interleaving extends to one in which all `N` calls have returned, the
initializer having run exactly once. -/
theorem initOnce_concurrent_runs_initializer_once {W : Type} (N : Nat) (fs : Tid → W → W) (w : W)
    (sched : List Tid) (hN : 1 ≤ N) :
    (((Sys.run N fs (Sys.init w) sched).log = [] ∧
          (Sys.run N fs (Sys.init w) sched).globals = w) ∨
        (∃ t, t < N ∧ (Sys.run N fs (Sys.init w) sched).log = [Obs.started t] ∧
          (Sys.run N fs (Sys.init w) sched).globals = w) ∨
        (∃ t rets, t < N ∧ (Sys.run N fs (Sys.init w) sched).log = ranOnceThen t rets ∧
          (Sys.run N fs (Sys.init w) sched).globals = fs t w)) ∧
      (∀ u, (Sys.run N fs (Sys.init w) sched).pc u = Pc.returned →
        ∃ t rets, t < N ∧ (Sys.run N fs (Sys.init w) sched).log = ranOnceThen t rets ∧
          u ∈ rets ∧ (Sys.run N fs (Sys.init w) sched).globals = fs t w) ∧
      ((∃ u, u < N ∧ (Sys.run N fs (Sys.init w) sched).pc u ≠ Pc.returned) →
        ∃ t, t < N ∧ ((Sys.run N fs (Sys.init w) sched).step N fs t).isSome = true) ∧
      (∀ t s1, (Sys.run N fs (Sys.init w) sched).step N fs t = some s1 →
        remaining s1.pc N < remaining (Sys.run N fs (Sys.init w) sched).pc N) ∧
      (∃ more t rets, t < N ∧
        (∀ u, u < N → (Sys.run N fs (Sys.init w) (sched ++ more)).pc u = Pc.returned) ∧
        (Sys.run N fs (Sys.init w) (sched ++ more)).log = ranOnceThen t rets ∧
        (∀ u, u < N → u ∈ rets) ∧
        (Sys.run N fs (Sys.init w) (sched ++ more)).globals = fs t w) := by
  have hinv := Inv_run N fs w sched (Sys.init w) (Inv_init N fs w)
  refine ⟨Inv_log N fs w _ hinv, Inv_returned N fs w _ hinv, Inv_progress N fs w _ hinv,
    fun t s1 h => step_remaining N fs _ s1 t h, ?_⟩
  obtain ⟨more, hmore⟩ := Inv_complete N fs w _ _ hinv (Nat.le_refl _)
  rw [← run_append] at hmore
  have hinv2 := Inv_run N fs w (sched ++ more) (Sys.init w) (Inv_init N fs w)
  obtain ⟨t, rets, htN, hlog, _, hglob⟩ := Inv_returned N fs w _ hinv2 0 (hmore 0 hN)
  refine ⟨more, t, rets, htN, hmore, hlog, fun u hu => ?_, hglob⟩
  obtain ⟨t1, rets1, _, hlog1, hmem, _⟩ := Inv_returned N fs w _ hinv2 u (hmore u hu)
  rw [hlog] at hlog1
  simp only [ranOnceThen, List.cons.injEq, Obs.started.injEq, Obs.finished.injEq] at hlog1
  have hinj : rets = rets1 :=
    List.map_injective_iff.mpr (fun a b h => by simpa using h) hlog1.2.2
  rw [hinj]
  exact hmem


/-- C8 for two threads, at the interleaving 1, 0, 1, 1. -/
theorem initOnce_concurrent_runs_initializer_once_witness :
    1 ≤ 2 ∧
      ((((Sys.run 2 addTid (Sys.init 0) [1, 0, 1, 1]).log = [] ∧
          (Sys.run 2 addTid (Sys.init 0) [1, 0, 1, 1]).globals = 0) ∨
        (∃ t, t < 2 ∧ (Sys.run 2 addTid (Sys.init 0) [1, 0, 1, 1]).log = [Obs.started t] ∧
          (Sys.run 2 addTid (Sys.init 0) [1, 0, 1, 1]).globals = 0) ∨
        (∃ t rets, t < 2 ∧ (Sys.run 2 addTid (Sys.init 0) [1, 0, 1, 1]).log = ranOnceThen t rets ∧
          (Sys.run 2 addTid (Sys.init 0) [1, 0, 1, 1]).globals = addTid t 0)) ∧
      (∀ u, (Sys.run 2 addTid (Sys.init 0) [1, 0, 1, 1]).pc u = Pc.returned →
        ∃ t rets, t < 2 ∧ (Sys.run 2 addTid (Sys.init 0) [1, 0, 1, 1]).log = ranOnceThen t rets ∧
          u ∈ rets ∧ (Sys.run 2 addTid (Sys.init 0) [1, 0, 1, 1]).globals = addTid t 0) ∧
      ((∃ u, u < 2 ∧ (Sys.run 2 addTid (Sys.init 0) [1, 0, 1, 1]).pc u ≠ Pc.returned) →
        ∃ t, t < 2 ∧ ((Sys.run 2 addTid (Sys.init 0) [1, 0, 1, 1]).step 2 addTid t).isSome = true) ∧
      (∀ t s1, (Sys.run 2 addTid (Sys.init 0) [1, 0, 1, 1]).step 2 addTid t = some s1 →
        remaining s1.pc 2 < remaining (Sys.run 2 addTid (Sys.init 0) [1, 0, 1, 1]).pc 2) ∧
      (∃ more t rets, t < 2 ∧
        (∀ u, u < 2 → (Sys.run 2 addTid (Sys.init 0) ([1, 0, 1, 1] ++ more)).pc u = Pc.returned) ∧
        (Sys.run 2 addTid (Sys.init 0) ([1, 0, 1, 1] ++ more)).log = ranOnceThen t rets ∧
        (∀ u, u < 2 → u ∈ rets) ∧
        (Sys.run 2 addTid (Sys.init 0) ([1, 0, 1, 1] ++ more)).globals = addTid t 0)) :=
  ⟨by decide, initOnce_concurrent_runs_initializer_once 2 addTid 0 [1, 0, 1, 1] (by decide)⟩

end port
end leveldb
